import Mathlib

/-!
Verification of the `BinarySearch` routine of the LearnSTL repository
(src/Algorithms/Exercises.cpp, lines 606-657).

The C++ function is

  template <std::forward_iterator ForwardIterator, typename ValueType>
  ForwardIterator BinarySearch(ForwardIterator first, const ForwardIterator last,
                               const ValueType& value) {
    unsigned int current_distance = std::distance(first, last);
    if (current_distance <= 1) {
      if (*first >= value) return first; else return last;
    }
    auto middle_it = first;
    unsigned int middle = current_distance / 2;
    std::advance(middle_it, middle);
    const ValueType& current_element = *middle_it;
    if (current_element >= value)
      return BinarySearch(first, middle_it, value);
    else
      return BinarySearch(middle_it, last, value);
  }

We embed the iterator range as a list `xs` together with two indices `lo` (the
iterator `first`) and `hi` (the iterator `last`); a returned iterator is the
index it points at, so `hi` is the end position.  `std::distance(first, last)`
is stored into a variable of type `unsigned int`, which is 32 bits wide on the
platforms this project targets, so the distance is reduced modulo
4294967296 = 2^32 on assignment; `middle = current_distance / 2` and
`middle_it = first + middle`.  A dereference `*it` is embedded as
`List.getD xs it default`; the `default` value is only ever reachable through
the single out-of-range dereference the code actually performs (the base case
reads `*first` even when `first == last`), and the companion function
`binarySearchReads` records every index the code dereferences so that this
read is visible.
-/

variable {α : Type} [LinearOrder α] [Inhabited α]

/-- Shallow embedding of `BinarySearch` (src/Algorithms/Exercises.cpp:606-657).
The two `if` conditions are, in source order, `current_distance <= 1` with
`current_distance = std::distance(first, last)` truncated to `unsigned int`
(32 bits, hence the reduction modulo 4294967296 = 2^32), and
`current_element >= value` with `current_element = *middle_it`,
`middle_it = first + current_distance / 2`. -/
def binarySearch (xs : List α) (lo hi : Nat) (v : α) : Nat :=
  if (hi - lo) % 4294967296 ≤ 1 then
    if xs.getD lo default ≥ v then lo else hi
  else
    if xs.getD (lo + (hi - lo) % 4294967296 / 2) default ≥ v then
      binarySearch xs lo (lo + (hi - lo) % 4294967296 / 2) v
    else
      binarySearch xs (lo + (hi - lo) % 4294967296 / 2) hi v
termination_by hi - lo
decreasing_by
  · omega
  · omega

/-- The indices dereferenced by `binarySearch`, in the order the code reads
them: the base case reads `*first` (index `lo`, even when the range is empty),
and every recursive step reads `*middle_it` before recursing. -/
def binarySearchReads (xs : List α) (lo hi : Nat) (v : α) : List Nat :=
  if (hi - lo) % 4294967296 ≤ 1 then [lo]
  else
    (lo + (hi - lo) % 4294967296 / 2) ::
      (if xs.getD (lo + (hi - lo) % 4294967296 / 2) default ≥ v then
        binarySearchReads xs lo (lo + (hi - lo) % 4294967296 / 2) v
      else
        binarySearchReads xs (lo + (hi - lo) % 4294967296 / 2) hi v)
termination_by hi - lo
decreasing_by
  · omega
  · omega

/-- The `(lo, hi)` argument pairs of all invocations of `binarySearch`
reached from a call on `(lo, hi)`: the call itself and, when it recurses,
every invocation reached from the recursive call. -/
def binarySearchCalls (xs : List α) (lo hi : Nat) (v : α) : List (Nat × Nat) :=
  if (hi - lo) % 4294967296 ≤ 1 then [(lo, hi)]
  else
    (lo, hi) ::
      (if xs.getD (lo + (hi - lo) % 4294967296 / 2) default ≥ v then
        binarySearchCalls xs lo (lo + (hi - lo) % 4294967296 / 2) v
      else
        binarySearchCalls xs (lo + (hi - lo) % 4294967296 / 2) hi v)
termination_by hi - lo
decreasing_by
  · omega
  · omega

/-- Fuel-bounded restatement of the same recursion: `none` when the fuel runs
out before the base case is reached.  Used to state termination: a fuel linear
in the span always suffices. -/
def binarySearchFuel : Nat → List α → Nat → Nat → α → Option Nat
  | 0, _, _, _, _ => none
  | fuel + 1, xs, lo, hi, v =>
    if (hi - lo) % 4294967296 ≤ 1 then
      if xs.getD lo default ≥ v then some lo else some hi
    else
      if xs.getD (lo + (hi - lo) % 4294967296 / 2) default ≥ v then
        binarySearchFuel fuel xs lo (lo + (hi - lo) % 4294967296 / 2) v
      else
        binarySearchFuel fuel xs (lo + (hi - lo) % 4294967296 / 2) hi v

/-- A sorted sequence long enough to overflow the 32-bit `current_distance`:
4294967296 = 2^32 zeros followed by a single 5. -/
def hugeList : List Int := List.replicate 4294967296 0 ++ [5]

/-- The sorted demonstration sequence the repository's `Misc::Exercise3`
driver feeds to `BinarySearch` (src/Algorithms/Exercises.cpp:663). -/
def demoList : List Int := [1, 3, 4, 6, 7, 9, 10]

/-! ### Basic step lemmas -/

theorem binarySearch_base_pos {xs : List α} {lo hi : Nat} {v : α}
    (h : (hi - lo) % 4294967296 ≤ 1) (hv : xs.getD lo default ≥ v) :
    binarySearch xs lo hi v = lo := by
  rw [binarySearch.eq_def, if_pos h, if_pos hv]

theorem binarySearch_base_neg {xs : List α} {lo hi : Nat} {v : α}
    (h : (hi - lo) % 4294967296 ≤ 1) (hv : ¬ xs.getD lo default ≥ v) :
    binarySearch xs lo hi v = hi := by
  rw [binarySearch.eq_def, if_pos h, if_neg hv]

theorem binarySearch_step_pos {xs : List α} {lo hi : Nat} {v : α}
    (h : ¬ (hi - lo) % 4294967296 ≤ 1)
    (hv : xs.getD (lo + (hi - lo) % 4294967296 / 2) default ≥ v) :
    binarySearch xs lo hi v = binarySearch xs lo (lo + (hi - lo) % 4294967296 / 2) v := by
  rw [binarySearch.eq_def, if_neg h, if_pos hv]

theorem binarySearch_step_neg {xs : List α} {lo hi : Nat} {v : α}
    (h : ¬ (hi - lo) % 4294967296 ≤ 1)
    (hv : ¬ xs.getD (lo + (hi - lo) % 4294967296 / 2) default ≥ v) :
    binarySearch xs lo hi v = binarySearch xs (lo + (hi - lo) % 4294967296 / 2) hi v := by
  rw [binarySearch.eq_def, if_neg h, if_neg hv]

/-- In the recursive case the midpoint index lies strictly between `lo` and
`hi`, so both half ranges are non-empty, with or without the 32-bit
truncation of the distance. -/
theorem binarySearch_mid_between {lo hi : Nat}
    (h : ¬ (hi - lo) % 4294967296 ≤ 1) :
    lo < lo + (hi - lo) % 4294967296 / 2 ∧ lo + (hi - lo) % 4294967296 / 2 < hi := by
  omega

/-! ### Element access and sortedness helpers -/

omit [LinearOrder α] in
theorem getD_eq_of_lt (xs : List α) (i : Nat) (h : i < xs.length) :
    xs.getD i default = xs[i] := by
  rw [List.getD_eq_getElem?_getD, List.getElem?_eq_getElem h, Option.getD_some]

theorem sorted_getD_mono {xs : List α} (hs : List.Sorted (· ≤ ·) xs)
    {i j : Nat} (hij : i ≤ j) (hj : j < xs.length) :
    xs.getD i default ≤ xs.getD j default := by
  have hi : i < xs.length := lt_of_le_of_lt hij hj
  rw [getD_eq_of_lt xs i hi, getD_eq_of_lt xs j hj]
  rcases Nat.eq_or_lt_of_le hij with rfl | hlt
  · exact le_refl _
  · have := hs.rel_get_of_lt (a := ⟨i, hi⟩) (b := ⟨j, hj⟩) hlt
    simpa using this

/-! ### Range bounds: the result never leaves `[lo, hi]` -/

theorem binarySearch_bounds_aux :
    ∀ (n : Nat) (xs : List α) (lo hi : Nat) (v : α), hi - lo ≤ n → lo ≤ hi →
      lo ≤ binarySearch xs lo hi v ∧ binarySearch xs lo hi v ≤ hi := by
  intro n
  induction n with
  | zero =>
    intro xs lo hi v hn hlh
    have hd : (hi - lo) % 4294967296 ≤ 1 := by omega
    by_cases hv : xs.getD lo default ≥ v
    · rw [binarySearch_base_pos hd hv]; omega
    · rw [binarySearch_base_neg hd hv]; omega
  | succ k ih =>
    intro xs lo hi v hn hlh
    by_cases hd : (hi - lo) % 4294967296 ≤ 1
    · by_cases hv : xs.getD lo default ≥ v
      · rw [binarySearch_base_pos hd hv]; omega
      · rw [binarySearch_base_neg hd hv]; omega
    · obtain ⟨hm1, hm2⟩ := binarySearch_mid_between hd
      by_cases hv : xs.getD (lo + (hi - lo) % 4294967296 / 2) default ≥ v
      · rw [binarySearch_step_pos hd hv]
        have := ih xs lo (lo + (hi - lo) % 4294967296 / 2) v (by omega) (by omega)
        omega
      · rw [binarySearch_step_neg hd hv]
        have := ih xs (lo + (hi - lo) % 4294967296 / 2) hi v (by omega) (by omega)
        omega

theorem binarySearch_bounds (xs : List α) (lo hi : Nat) (v : α) (hlh : lo ≤ hi) :
    lo ≤ binarySearch xs lo hi v ∧ binarySearch xs lo hi v ≤ hi :=
  binarySearch_bounds_aux (hi - lo) xs lo hi v le_rfl hlh

/-! ### Lower-bound characterization

`binarySearch_exact_aux` is the full lower-bound characterization, valid as
long as the span fits in the 32-bit `current_distance` (so that no truncation
occurs anywhere in the recursion).  `binarySearch_weak_aux` is the weaker
disjunctive contract, valid for every span: whenever the code recurses into
its left half that half's span is `current_distance / 2 < 2^32`, hence exact,
so the strong characterization applies to it. -/

theorem binarySearch_exact_base {xs : List α} {lo hi : Nat} {v : α}
    (hd : (hi - lo) % 4294967296 ≤ 1) (hex : hi - lo < 4294967296)
    (hlh : lo ≤ hi) :
    (∀ q, lo ≤ q → q < binarySearch xs lo hi v → xs.getD q default < v) ∧
    (binarySearch xs lo hi v < hi → v ≤ xs.getD (binarySearch xs lo hi v) default) := by
  have hspan : hi - lo ≤ 1 := by omega
  by_cases hv : xs.getD lo default ≥ v
  · rw [binarySearch_base_pos hd hv]
    exact ⟨fun q hq1 hq2 => absurd hq2 (by omega), fun _ => hv⟩
  · rw [binarySearch_base_neg hd hv]
    refine ⟨fun q hq1 hq2 => ?_, fun h => absurd h (lt_irrefl _)⟩
    have hq : q = lo := by omega
    subst hq
    exact lt_of_not_ge hv

theorem binarySearch_exact_aux :
    ∀ (n : Nat) (xs : List α) (lo hi : Nat) (v : α), hi - lo ≤ n →
      hi - lo < 4294967296 → lo ≤ hi → hi ≤ xs.length → List.Sorted (· ≤ ·) xs →
      (∀ q, lo ≤ q → q < binarySearch xs lo hi v → xs.getD q default < v) ∧
      (binarySearch xs lo hi v < hi → v ≤ xs.getD (binarySearch xs lo hi v) default) := by
  intro n
  induction n with
  | zero =>
    intro xs lo hi v hn hex hlh _hlen _hs
    exact binarySearch_exact_base (by omega) hex hlh
  | succ k ih =>
    intro xs lo hi v hn hex hlh hlen hs
    by_cases hd : (hi - lo) % 4294967296 ≤ 1
    · exact binarySearch_exact_base hd hex hlh
    · obtain ⟨hm1, hm2⟩ := binarySearch_mid_between hd
      by_cases hv : xs.getD (lo + (hi - lo) % 4294967296 / 2) default ≥ v
      · rw [binarySearch_step_pos hd hv]
        have hb := binarySearch_bounds xs lo (lo + (hi - lo) % 4294967296 / 2) v (by omega)
        have hih := ih xs lo (lo + (hi - lo) % 4294967296 / 2) v (by omega) (by omega)
          (by omega) (by omega) hs
        refine ⟨hih.1, fun _ => ?_⟩
        rcases Nat.lt_or_ge (binarySearch xs lo (lo + (hi - lo) % 4294967296 / 2) v)
          (lo + (hi - lo) % 4294967296 / 2) with hc | hc
        · exact hih.2 hc
        · have heq : binarySearch xs lo (lo + (hi - lo) % 4294967296 / 2) v
              = lo + (hi - lo) % 4294967296 / 2 := by omega
          rw [heq]; exact hv
      · rw [binarySearch_step_neg hd hv]
        have hih := ih xs (lo + (hi - lo) % 4294967296 / 2) hi v (by omega) (by omega)
          (by omega) hlen hs
        refine ⟨fun q hq1 hq2 => ?_, hih.2⟩
        rcases Nat.lt_or_ge q (lo + (hi - lo) % 4294967296 / 2) with hc | hc
        · exact lt_of_le_of_lt (sorted_getD_mono hs (by omega) (by omega)) (lt_of_not_ge hv)
        · exact hih.1 q hc hq2

theorem binarySearch_weak_aux :
    ∀ (n : Nat) (xs : List α) (lo hi : Nat) (v : α), hi - lo ≤ n →
      lo ≤ hi → hi ≤ xs.length → List.Sorted (· ≤ ·) xs →
      binarySearch xs lo hi v = hi ∨
      (binarySearch xs lo hi v < hi ∧ v ≤ xs.getD (binarySearch xs lo hi v) default ∧
       ∀ q, lo ≤ q → q < binarySearch xs lo hi v → xs.getD q default < v) := by
  intro n
  induction n with
  | zero =>
    intro xs lo hi v hn hlh _hlen _hs
    have hd : (hi - lo) % 4294967296 ≤ 1 := by omega
    by_cases hv : xs.getD lo default ≥ v
    · rw [binarySearch_base_pos hd hv]; left; omega
    · rw [binarySearch_base_neg hd hv]; left; rfl
  | succ k ih =>
    intro xs lo hi v hn hlh hlen hs
    by_cases hd : (hi - lo) % 4294967296 ≤ 1
    · by_cases hv : xs.getD lo default ≥ v
      · rw [binarySearch_base_pos hd hv]
        rcases Nat.eq_or_lt_of_le hlh with heq | hlt
        · left; omega
        · right
          exact ⟨hlt, hv, fun q hq1 hq2 => absurd hq2 (by omega)⟩
      · rw [binarySearch_base_neg hd hv]; left; rfl
    · obtain ⟨hm1, hm2⟩ := binarySearch_mid_between hd
      by_cases hv : xs.getD (lo + (hi - lo) % 4294967296 / 2) default ≥ v
      · rw [binarySearch_step_pos hd hv]
        have hb := binarySearch_bounds xs lo (lo + (hi - lo) % 4294967296 / 2) v (by omega)
        have hexact := binarySearch_exact_aux (lo + (hi - lo) % 4294967296 / 2 - lo) xs lo
          (lo + (hi - lo) % 4294967296 / 2) v le_rfl (by omega) (by omega) (by omega) hs
        right
        refine ⟨by omega, ?_, hexact.1⟩
        rcases Nat.lt_or_ge (binarySearch xs lo (lo + (hi - lo) % 4294967296 / 2) v)
          (lo + (hi - lo) % 4294967296 / 2) with hc | hc
        · exact hexact.2 hc
        · have heq : binarySearch xs lo (lo + (hi - lo) % 4294967296 / 2) v
              = lo + (hi - lo) % 4294967296 / 2 := by omega
          rw [heq]; exact hv
      · rw [binarySearch_step_neg hd hv]
        have hih := ih xs (lo + (hi - lo) % 4294967296 / 2) hi v (by omega) (by omega) hlen hs
        rcases hih with h1 | ⟨h1, h2, h3⟩
        · left; exact h1
        · right
          refine ⟨h1, h2, fun q hq1 hq2 => ?_⟩
          rcases Nat.lt_or_ge q (lo + (hi - lo) % 4294967296 / 2) with hc | hc
          · exact lt_of_le_of_lt (sorted_getD_mono hs (by omega) (by omega)) (lt_of_not_ge hv)
          · exact h3 q hc hq2

theorem binarySearch_ge_first_aux :
    ∀ (n : Nat) (xs : List α) (lo hi : Nat) (v : α), hi - lo ≤ n →
      lo < hi → hi ≤ xs.length → List.Sorted (· ≤ ·) xs →
      v ≤ xs.getD lo default →
      binarySearch xs lo hi v = lo := by
  intro n
  induction n with
  | zero =>
    intro xs lo hi v hn hlh _hlen _hs _hv
    exact absurd hlh (by omega)
  | succ k ih =>
    intro xs lo hi v hn hlh hlen hs hv
    by_cases hd : (hi - lo) % 4294967296 ≤ 1
    · exact binarySearch_base_pos hd hv
    · obtain ⟨hm1, hm2⟩ := binarySearch_mid_between hd
      have hmv : xs.getD (lo + (hi - lo) % 4294967296 / 2) default ≥ v :=
        le_trans hv (sorted_getD_mono hs (by omega) (by omega))
      rw [binarySearch_step_pos hd hmv]
      exact ih xs lo _ v (by omega) (by omega) (by omega) hs hv

/-! ### Fuel equivalence: the recursion terminates within a linear budget -/

theorem binarySearchFuel_eq_aux :
    ∀ (fuel : Nat) (xs : List α) (lo hi : Nat) (v : α), hi - lo < fuel →
      binarySearchFuel fuel xs lo hi v = some (binarySearch xs lo hi v) := by
  intro fuel
  induction fuel with
  | zero =>
    intro xs lo hi v h
    exact absurd h (by omega)
  | succ k ih =>
    intro xs lo hi v h
    by_cases hd : (hi - lo) % 4294967296 ≤ 1
    · by_cases hv : xs.getD lo default ≥ v
      · rw [binarySearch_base_pos hd hv]
        simp only [binarySearchFuel, if_pos hd, if_pos hv]
      · rw [binarySearch_base_neg hd hv]
        simp only [binarySearchFuel, if_pos hd, if_neg hv]
    · obtain ⟨hm1, hm2⟩ := binarySearch_mid_between hd
      by_cases hv : xs.getD (lo + (hi - lo) % 4294967296 / 2) default ≥ v
      · rw [binarySearch_step_pos hd hv]
        have hstep : binarySearchFuel (k + 1) xs lo hi v
            = binarySearchFuel k xs lo (lo + (hi - lo) % 4294967296 / 2) v := by
          simp only [binarySearchFuel, if_neg hd, if_pos hv]
        rw [hstep]
        exact ih xs lo _ v (by omega)
      · rw [binarySearch_step_neg hd hv]
        have hstep : binarySearchFuel (k + 1) xs lo hi v
            = binarySearchFuel k xs (lo + (hi - lo) % 4294967296 / 2) hi v := by
          simp only [binarySearchFuel, if_neg hd, if_neg hv]
        rw [hstep]
        exact ih xs _ hi v (by omega)

/-- Transfer of concrete evaluations from the fuel-bounded form to
`binarySearch` itself. -/
theorem binarySearch_eval_of_fuel {xs : List α} {lo hi r : Nat} {v : α}
    (h : binarySearchFuel (hi - lo + 1) xs lo hi v = some r) :
    binarySearch xs lo hi v = r := by
  have h2 := binarySearchFuel_eq_aux (hi - lo + 1) xs lo hi v (Nat.lt_succ_self _)
  exact Option.some.inj (h2.symm.trans h)

/-! ### Facts about the overflowing sequence `hugeList` -/

theorem hugeList_length : hugeList.length = 4294967297 := by
  unfold hugeList
  rw [List.length_append, List.length_replicate, List.length_singleton]

theorem hugeList_getD_of_lt {i : Nat} (h : i < 4294967296) :
    hugeList.getD i default = 0 := by
  rw [List.getD_eq_getElem?_getD]
  unfold hugeList
  rw [List.getElem?_append_left (by rw [List.length_replicate]; exact h)]
  rw [List.getElem?_replicate_of_lt h]
  rfl

theorem hugeList_getD_last : hugeList.getD 4294967296 default = 5 := by
  rw [List.getD_eq_getElem?_getD]
  unfold hugeList
  rw [List.getElem?_append_right (by rw [List.length_replicate])]
  rw [List.length_replicate]
  rfl

theorem hugeList_sorted : List.Sorted (· ≤ ·) hugeList := by
  have hp : List.Pairwise (· ≤ ·) (List.replicate 4294967296 (0 : Int) ++ [5]) := by
    rw [List.pairwise_append]
    refine ⟨?_, List.pairwise_singleton _ _, ?_⟩
    · rw [List.pairwise_replicate]
      right
      exact le_refl (0 : Int)
    · intro a ha b hb
      rw [List.eq_of_mem_replicate ha]
      rcases List.mem_singleton.mp hb with rfl
      norm_num
  exact hp

/-- On `hugeList` the span 4294967297 is truncated to `current_distance = 1`,
so the very first call already takes the base case, reads only `hugeList[0] = 0`,
and returns the end position. -/
theorem binarySearch_hugeList_eval :
    binarySearch hugeList 0 4294967297 3 = 4294967297 := by
  have hd : (4294967297 - 0) % 4294967296 ≤ 1 := by norm_num
  have hv : ¬ hugeList.getD 0 default ≥ (3 : Int) := by
    rw [hugeList_getD_of_lt (by norm_num)]
    norm_num
  rw [binarySearch_base_neg hd hv]

/-! ### Every reached invocation has a non-empty range -/

theorem binarySearchCalls_nonempty_aux :
    ∀ (n : Nat) (xs : List α) (lo hi : Nat) (v : α), hi - lo ≤ n → lo < hi →
      ∀ pr ∈ binarySearchCalls xs lo hi v, pr.1 < pr.2 := by
  intro n
  induction n with
  | zero =>
    intro xs lo hi v hn hlh
    exact absurd hlh (by omega)
  | succ k ih =>
    intro xs lo hi v hn hlh pr hpr
    by_cases hd : (hi - lo) % 4294967296 ≤ 1
    · rw [binarySearchCalls.eq_def, if_pos hd] at hpr
      have hpr2 := List.mem_singleton.mp hpr
      subst hpr2
      exact hlh
    · obtain ⟨hm1, hm2⟩ := binarySearch_mid_between hd
      rw [binarySearchCalls.eq_def, if_neg hd] at hpr
      rcases List.mem_cons.mp hpr with rfl | hmem
      · exact hlh
      · by_cases hv : xs.getD (lo + (hi - lo) % 4294967296 / 2) default ≥ v
        · rw [if_pos hv] at hmem
          exact ih xs lo _ v (by omega) (by omega) pr hmem
        · rw [if_neg hv] at hmem
          exact ih xs _ hi v (by omega) (by omega) pr hmem

/-! ### The claims -/

/-- C1: on a sequence sorted ascending under the element type's total order,
`BinarySearch(first, last, v)` returns a position `p` with `p == last`, or
with `element(p) >= v` and every position strictly before `p` in
`[first, last)` holding an element `< v` (the lower-bound contract).  Stated
for the call on the whole sequence, `lo = 0`, `hi = xs.length`. -/
theorem binarySearch_lower_bound_contract (xs : List α) (v : α)
    (hs : List.Sorted (· ≤ ·) xs) :
    binarySearch xs 0 xs.length v = xs.length ∨
    (binarySearch xs 0 xs.length v < xs.length ∧
     v ≤ xs.getD (binarySearch xs 0 xs.length v) default ∧
     ∀ q, q < binarySearch xs 0 xs.length v → xs.getD q default < v) := by
  rcases binarySearch_weak_aux xs.length xs 0 xs.length v (by omega) (Nat.zero_le _)
    le_rfl hs with h | ⟨h1, h2, h3⟩
  · left; exact h
  · right; exact ⟨h1, h2, fun q hq => h3 q (Nat.zero_le q) hq⟩

theorem binarySearch_lower_bound_contract_witness :
    List.Sorted (· ≤ ·) demoList ∧
    (binarySearch demoList 0 demoList.length 5 = demoList.length ∨
     (binarySearch demoList 0 demoList.length 5 < demoList.length ∧
      (5 : Int) ≤ demoList.getD (binarySearch demoList 0 demoList.length 5) default ∧
      ∀ q, q < binarySearch demoList 0 demoList.length 5 → demoList.getD q default < 5)) :=
  ⟨by decide, binarySearch_lower_bound_contract demoList 5 (by decide)⟩

/-- C2 (code bug): on the empty range `first == last` the code does return
the end position, but only after dereferencing `*first`, which is the
one-past-the-end position: `binarySearchReads` records the read of index `0`
although the range `[0, 0)` contains no position.  In the C++ source this
dereference is an out-of-bounds read. -/
theorem binarySearch_empty_range_reads_past_end :
    binarySearch ([] : List Int) 0 0 5 = 0 ∧
    binarySearchReads ([] : List Int) 0 0 5 = [0] := by
  constructor
  · rw [binarySearch.eq_def]
    norm_num
  · rw [binarySearchReads.eq_def]
    norm_num

/-- C3 (code bug): it is not the case that every index dereferenced by
`BinarySearch` lies inside `[first, last)`: on the empty range `[0, 0)` the
code dereferences index `0`, which is not a valid position of that range. -/
theorem binarySearch_reads_not_all_in_range :
    ¬ (∀ i ∈ binarySearchReads ([] : List Int) 0 0 7, i < 0) := by
  intro h
  have h0 : (0 : Nat) ∈ binarySearchReads ([] : List Int) 0 0 7 := by
    rw [binarySearchReads.eq_def]
    norm_num
  exact absurd (h 0 h0) (by omega)

/-- C4: `BinarySearch` terminates on every input range and search value,
sorted or not: the recursion completes within a fuel budget linear in the
span, because every recursive call strictly shrinks the span. -/
theorem binarySearch_terminates_with_linear_fuel (xs : List α) (lo hi : Nat) (v : α) :
    binarySearchFuel (hi - lo + 1) xs lo hi v = some (binarySearch xs lo hi v) :=
  binarySearchFuel_eq_aux (hi - lo + 1) xs lo hi v (Nat.lt_succ_self _)

/-- C5 counterexample: the recursive step does NOT always compute the
midpoint as span length / 2.  On `hugeList` (span 4294967297 = 2^32 + 1,
more than one element) the claimed step equation fails: the truncated
32-bit distance is 1, so the code takes the base case and returns the end
position, while the midpoint recursion described by the claim cannot reach
the end position. -/
theorem binarySearch_midpoint_not_true_span_half :
    1 < 4294967297 - 0 ∧
    binarySearch hugeList 0 4294967297 3 ≠
      (if hugeList.getD (0 + (4294967297 - 0) / 2) default ≥ 3 then
        binarySearch hugeList 0 (0 + (4294967297 - 0) / 2) 3
      else binarySearch hugeList (0 + (4294967297 - 0) / 2) 4294967297 3) := by
  refine ⟨by norm_num, ?_⟩
  have hmid : (0 + (4294967297 - 0) / 2 : Nat) = 2147483648 := by norm_num
  rw [hmid]
  have hv : ¬ hugeList.getD 2147483648 default ≥ (3 : Int) := by
    rw [hugeList_getD_of_lt (by norm_num)]
    norm_num
  rw [if_neg hv, binarySearch_hugeList_eval]
  intro heq
  have hexact := binarySearch_exact_aux (4294967297 - 2147483648) hugeList 2147483648
    4294967297 3 le_rfl (by norm_num) (by norm_num) (by rw [hugeList_length]) hugeList_sorted
  have h5 := hexact.1 4294967296 (by norm_num) (by omega)
  rw [hugeList_getD_last] at h5
  norm_num at h5

/-- C5 (amended): at every recursive step whose span is more than one element
and fits the 32-bit `current_distance` (span < 2^32, so no truncation), the
midpoint is span length / 2, floored; the code recurses on `[start, midpoint)`
together with the possible return value `midpoint` when the midpoint element
is `>= value` (the inclusive narrowing), and on `[midpoint, end)` otherwise. -/
theorem binarySearch_step_equation (xs : List α) (lo hi : Nat) (v : α)
    (h1 : 1 < hi - lo) (h2 : hi - lo < 4294967296) :
    binarySearch xs lo hi v =
      if xs.getD (lo + (hi - lo) / 2) default ≥ v then
        binarySearch xs lo (lo + (hi - lo) / 2) v
      else binarySearch xs (lo + (hi - lo) / 2) hi v := by
  have hmod : (hi - lo) % 4294967296 = hi - lo := Nat.mod_eq_of_lt h2
  conv_lhs => rw [binarySearch.eq_def]
  rw [hmod, if_neg (by omega)]

theorem binarySearch_step_equation_witness :
    1 < 3 - 0 ∧ (3 - 0 : Nat) < 4294967296 ∧
    (binarySearch [(3 : Int), 1, 2] 0 3 2 =
      if [(3 : Int), 1, 2].getD (0 + (3 - 0) / 2) default ≥ 2 then
        binarySearch [(3 : Int), 1, 2] 0 (0 + (3 - 0) / 2) 2
      else binarySearch [(3 : Int), 1, 2] (0 + (3 - 0) / 2) 3 2) :=
  ⟨by decide, by decide,
    binarySearch_step_equation [(3 : Int), 1, 2] 0 3 2 (by decide) (by decide)⟩

/-- C6 (code bug): the specific duplicate scenario holds — on `[2,2,2,5]`
with value `2` the code returns index `0` — but the universal leftmost
guarantee fails: `hugeList` is sorted, position 4294967296 holds `5 >= 3`,
yet the call with value `3` returns the end position 4294967297 instead of
the leftmost qualifying position, because the 32-bit `current_distance`
truncates the span 2^32 + 1 to 1. -/
theorem binarySearch_misses_leftmost_on_huge_input :
    binarySearch [(2 : Int), 2, 2, 5] 0 4 2 = 0 ∧
    List.Sorted (· ≤ ·) hugeList ∧
    binarySearch hugeList 0 hugeList.length 3 = hugeList.length ∧
    4294967296 < hugeList.length ∧ (3 : Int) ≤ hugeList.getD 4294967296 default := by
  refine ⟨binarySearch_eval_of_fuel (by decide), hugeList_sorted, ?_, ?_, ?_⟩
  · rw [hugeList_length]
    exact binarySearch_hugeList_eval
  · rw [hugeList_length]
    norm_num
  · rw [hugeList_getD_last]
    norm_num

/-- C7: on a non-empty sorted sequence, a search value less than or equal to
the first element makes `BinarySearch` return the first position. -/
theorem binarySearch_le_first_returns_first (xs : List α) (v : α)
    (h : 0 < xs.length) (hs : List.Sorted (· ≤ ·) xs)
    (hv : v ≤ xs.getD 0 default) :
    binarySearch xs 0 xs.length v = 0 :=
  binarySearch_ge_first_aux xs.length xs 0 xs.length v (by omega) h le_rfl hs hv

theorem binarySearch_le_first_returns_first_witness :
    0 < demoList.length ∧ List.Sorted (· ≤ ·) demoList ∧
    (0 : Int) ≤ demoList.getD 0 default ∧
    binarySearch demoList 0 demoList.length 0 = 0 :=
  ⟨by decide, by decide, by decide,
    binarySearch_le_first_returns_first demoList 0 (by decide) (by decide) (by decide)⟩

/-- C8: `BinarySearch` is deterministic: two calls on identical arguments
yield the same position.  The embedding is a pure function of its arguments
(the C++ routine reads its input without mutating it), so equal arguments
give equal results. -/
theorem binarySearch_deterministic (xs ys : List α) (lo lo2 hi hi2 : Nat) (v w : α)
    (hxs : xs = ys) (hlo : lo = lo2) (hhi : hi = hi2) (hv : v = w) :
    binarySearch xs lo hi v = binarySearch ys lo2 hi2 w := by
  subst hxs
  subst hlo
  subst hhi
  subst hv
  rfl

theorem binarySearch_deterministic_witness :
    ([(2 : Int), 2, 2, 5] = [(2 : Int), 2, 2, 5]) ∧
    binarySearch [(2 : Int), 2, 2, 5] 0 4 2 = binarySearch [(2 : Int), 2, 2, 5] 0 4 2 :=
  ⟨by decide,
    binarySearch_deterministic [(2 : Int), 2, 2, 5] [(2 : Int), 2, 2, 5] 0 0 4 4 2 2
      (by decide) rfl rfl rfl⟩

/-- C9: starting from a non-empty range, every invocation of `BinarySearch`
(the original call and every recursive call) receives a non-empty subrange,
so the empty-span case of the base condition is never reached.  This holds
with or without sortedness, and with or without distance truncation, because
in the recursive case the midpoint lies strictly between the bounds. -/
theorem binarySearch_calls_nonempty (xs : List α) (lo hi : Nat) (v : α) (h : lo < hi) :
    ∀ pr ∈ binarySearchCalls xs lo hi v, pr.1 < pr.2 :=
  binarySearchCalls_nonempty_aux (hi - lo) xs lo hi v le_rfl h

theorem binarySearch_calls_nonempty_witness :
    0 < 3 ∧ ∀ pr ∈ binarySearchCalls [(4 : Int), 1, 9] 0 3 5, pr.1 < pr.2 :=
  ⟨by decide, binarySearch_calls_nonempty [(4 : Int), 1, 9] 0 3 5 (by decide)⟩

/-- C10: on every non-empty input range, sorted or not, the returned
position lies within `[first, last]`: at or after the start and at most the
end position. -/
theorem binarySearch_result_in_range (xs : List α) (lo hi : Nat) (v : α) (h : lo < hi) :
    lo ≤ binarySearch xs lo hi v ∧ binarySearch xs lo hi v ≤ hi :=
  binarySearch_bounds xs lo hi v (le_of_lt h)

theorem binarySearch_result_in_range_witness :
    0 < 3 ∧ 0 ≤ binarySearch [(10 : Int), 2, 7] 0 3 5 ∧ binarySearch [(10 : Int), 2, 7] 0 3 5 ≤ 3 :=
  ⟨by decide, binarySearch_result_in_range [(10 : Int), 2, 7] 0 3 5 (by decide)⟩
